import Mathlib

/-!
Verification of `edfinity-to-ww-zipper.py`, a script that splits pasted text
into PG problem blocks delimited by `DOCUMENT();` / `ENDDOCUMENT();` marker
pairs, writes each block to a file and zips the folder.

Strings are modelled as `List Char`.  The regex scan of
`re.finditer(r'DOCUMENT\(\);|ENDDOCUMENT\(\);', s)` is modelled as a
left-to-right scan emitting leftmost, non-overlapping matches; the scan
consumes the whole match and continues after it, exactly as `finditer` does.
Fuel (bounded by the length of the text) makes the scan structurally
recursive and hence executable by the kernel.
-/

/-- The two kinds of marker tokens produced by the scan. -/
inductive Tok where
  | doc : Tok
  | enddoc : Tok
  deriving DecidableEq, Repr

/-- The begin-marker literal `DOCUMENT();`. -/
def beginMarker : List Char := "DOCUMENT();".data

/-- The end-marker literal `ENDDOCUMENT();`. -/
def endMarker : List Char := "ENDDOCUMENT();".data

/-- The literal a token kind stands for. -/
def markerOf : Tok → List Char
  | Tok.doc => beginMarker
  | Tok.enddoc => endMarker

/-- One step of the regex scan: try `DOCUMENT\(\);` first (the first
alternative of the pattern), then `ENDDOCUMENT\(\);`; on a match consume the
matched literal, otherwise advance one character.  `fuel` only bounds the
number of steps (each step consumes at least one character). -/
def findTokensGo : Nat → List Char → Nat → List (Nat × Tok)
  | 0, _, _ => []
  | _ + 1, [], _ => []
  | fuel + 1, c :: rest, pos =>
    if beginMarker.isPrefixOf (c :: rest) then
      (pos, Tok.doc) :: findTokensGo fuel ((c :: rest).drop beginMarker.length)
        (pos + beginMarker.length)
    else if endMarker.isPrefixOf (c :: rest) then
      (pos, Tok.enddoc) :: findTokensGo fuel ((c :: rest).drop endMarker.length)
        (pos + endMarker.length)
    else
      findTokensGo fuel rest (pos + 1)

/-- `tokens = [(m.start(), m.group()) for m in re.finditer(...)]`:
all marker occurrences of the text, leftmost and non-overlapping,
as (offset, kind) pairs in increasing offset order. -/
def findTokens (s : List Char) : List (Nat × Tok) :=
  findTokensGo s.length s 0

/-- Number of characters up to (not including) the next newline:
the `while end_pos < len(s) and s[end_pos] not in '\n'` loop. -/
def scanToEol : List Char → Nat
  | [] => 0
  | c :: rest => if c = '\n' then 0 else 1 + scanToEol rest

/-- Extend a position to the end of its line (stopping at `'\n'` or at the
end of the text). -/
def extendToEol (s : List Char) (p : Nat) : Nat :=
  p + scanToEol (s.drop p)

/-- `if not block.endswith("\n"): block += "\n"`. -/
def ensureNewline (b : List Char) : List Char :=
  if b.getLast? = some '\n' then b else b ++ ['\n']

/-- The block the extractor emits for a pending start `a` and a closing
end-marker token at offset `pos`: the slice from `a` through the end marker,
extended to the end of the line, with a final newline ensured. -/
def mkBlock (s : List Char) (a pos : Nat) : List Char :=
  let endPos := extendToEol s (pos + endMarker.length)
  ensureNewline ((s.drop a).take (endPos - a))

/-- The token loop of `extract_pg_blocks_tokenized`: nesting counter
`level`, pending start `cur`.  A begin token records the start when the
counter is zero and always increments; an end token decrements a positive
counter and closes a block when it reaches zero; an end token at counter
zero is ignored. -/
def extractLoop (s : List Char) : List (Nat × Tok) → Nat → Option Nat → List (List Char)
  | [], _, _ => []
  | (pos, Tok.doc) :: rest, level, cur =>
    extractLoop s rest (level + 1) (if level = 0 then some pos else cur)
  | (pos, Tok.enddoc) :: rest, level, cur =>
    if level > 0 then
      if level - 1 = 0 then
        match cur with
        | some a => mkBlock s a pos :: extractLoop s rest (level - 1) none
        | none => extractLoop s rest (level - 1) cur
      else
        extractLoop s rest (level - 1) cur
    else
      extractLoop s rest level cur

/-- `extract_pg_blocks_tokenized`: pair each `DOCUMENT();` with its matching
`ENDDOCUMENT();` by a nesting counter and return the list of blocks. -/
def extract_pg_blocks_tokenized (s : List Char) : List (List Char) :=
  extractLoop s (findTokens s) 0 none

/-- The end-to-end example input of the spec. -/
def exampleInput : List Char :=
  ("DOCUMENT();\nfoo\nENDDOCUMENT(); % comment\n" ++
   "DOCUMENT();\nbar\nENDDOCUMENT();\n").data

/-- Two begin markers followed by a single end marker (simulated nesting). -/
def nestedInput : List Char :=
  "DOCUMENT();DOCUMENT();ENDDOCUMENT();".data

example : findTokens nestedInput = [(0, Tok.doc), (11, Tok.doc), (22, Tok.enddoc)] := by
  decide

example : extract_pg_blocks_tokenized nestedInput = [] := by decide

example :
    extract_pg_blocks_tokenized exampleInput =
      ["DOCUMENT();\nfoo\nENDDOCUMENT(); % comment\n".data,
       "DOCUMENT();\nbar\nENDDOCUMENT();\n".data] := by
  decide

/-! ## Tokenizer infrastructure -/

theorem beginMarker_length : beginMarker.length = 11 := rfl

theorem endMarker_length : endMarker.length = 14 := rfl

/-- The scan does not depend on the fuel once the fuel dominates the length
of the text. -/
theorem findTokensGo_fuel : ∀ f g (s : List Char) (pos : Nat), s.length ≤ f →
    s.length ≤ g → findTokensGo f s pos = findTokensGo g s pos := by
  intro f
  induction f with
  | zero =>
    intro g s pos hf _
    have hs : s = [] := List.eq_nil_of_length_eq_zero (Nat.le_zero.mp hf)
    subst hs
    cases g <;> rfl
  | succ f ih =>
    intro g s pos hf hg
    cases s with
    | nil => cases g <;> rfl
    | cons c rest =>
      cases g with
      | zero => simp at hg
      | succ g =>
        have hr : rest.length ≤ f := by
          have := Nat.le_of_succ_le_succ (by simpa using hf)
          exact this
        have hr' : rest.length ≤ g := by
          have := Nat.le_of_succ_le_succ (by simpa using hg)
          exact this
        simp only [findTokensGo]
        by_cases hb : beginMarker.isPrefixOf (c :: rest) = true
        · simp only [hb, if_true]
          have hlen : ((c :: rest).drop beginMarker.length).length ≤ f := by
            simp only [List.length_drop, List.length_cons, beginMarker_length, endMarker_length]
            omega
          have hlen' : ((c :: rest).drop beginMarker.length).length ≤ g := by
            simp only [List.length_drop, List.length_cons, beginMarker_length, endMarker_length]
            omega
          rw [ih _ _ _ hlen hlen']
        · simp only [Bool.not_eq_true] at hb
          simp only [hb, Bool.false_eq_true, if_false]
          by_cases he : endMarker.isPrefixOf (c :: rest) = true
          · simp only [he, if_true]
            have hlen : ((c :: rest).drop endMarker.length).length ≤ f := by
              simp only [List.length_drop, List.length_cons, endMarker_length]
              omega
            have hlen' : ((c :: rest).drop endMarker.length).length ≤ g := by
              simp only [List.length_drop, List.length_cons, endMarker_length]
              omega
            rw [ih _ _ _ hlen hlen']
          · simp only [Bool.not_eq_true] at he
            simp only [he, Bool.false_eq_true, if_false]
            exact ih _ _ _ hr hr'

/-- The scan started at offset `pos`: the tail-recursive worker with its
canonical fuel. -/
def findTokensFrom (s : List Char) (pos : Nat) : List (Nat × Tok) :=
  findTokensGo s.length s pos

theorem findTokens_eq_from (s : List Char) : findTokens s = findTokensFrom s 0 := rfl

theorem findTokensFrom_nil (pos : Nat) : findTokensFrom [] pos = [] := rfl

theorem findTokensFrom_begin {s : List Char} (pos : Nat)
    (hb : beginMarker.isPrefixOf s = true) :
    findTokensFrom s pos =
      (pos, Tok.doc) ::
        findTokensFrom (s.drop beginMarker.length) (pos + beginMarker.length) := by
  cases s with
  | nil => simp [beginMarker] at hb
  | cons c rest =>
    show findTokensGo (rest.length + 1) (c :: rest) pos = _
    simp only [findTokensGo, hb, if_true]
    congr 1
    exact (findTokensGo_fuel rest.length _ _ _
      (by simp only [List.length_drop, List.length_cons, beginMarker_length, endMarker_length]; omega) le_rfl).symm.symm
      |>.trans (findTokensGo_fuel _ _ _ _
        (by simp only [List.length_drop, List.length_cons, beginMarker_length, endMarker_length]; omega) le_rfl)

theorem findTokensFrom_end {s : List Char} (pos : Nat)
    (hb : beginMarker.isPrefixOf s = false) (he : endMarker.isPrefixOf s = true) :
    findTokensFrom s pos =
      (pos, Tok.enddoc) ::
        findTokensFrom (s.drop endMarker.length) (pos + endMarker.length) := by
  cases s with
  | nil => simp [endMarker] at he
  | cons c rest =>
    show findTokensGo (rest.length + 1) (c :: rest) pos = _
    simp only [findTokensGo, hb, he, Bool.false_eq_true, if_false, if_true]
    congr 1
    exact findTokensGo_fuel _ _ _ _
      (by simp only [List.length_drop, List.length_cons, beginMarker_length, endMarker_length]; omega) le_rfl

theorem findTokensFrom_step {c : Char} {rest : List Char} (pos : Nat)
    (hb : beginMarker.isPrefixOf (c :: rest) = false)
    (he : endMarker.isPrefixOf (c :: rest) = false) :
    findTokensFrom (c :: rest) pos = findTokensFrom rest (pos + 1) := by
  show findTokensGo (rest.length + 1) (c :: rest) pos = _
  simp only [findTokensGo, hb, he, Bool.false_eq_true, if_false]
  rfl

/-- Composing two offset shifts is a single shift. -/
theorem map_shift_shift (l : List (Nat × Tok)) (a b : Nat) :
    (l.map (fun pt => (pt.1 + a, pt.2))).map (fun pt => (pt.1 + b, pt.2)) =
      l.map (fun pt => (pt.1 + (b + a), pt.2)) := by
  induction l with
  | nil => rfl
  | cons x xs ih =>
    simp only [List.map_cons, ih, List.cons.injEq, Prod.mk.injEq, and_true]
    omega

/-- Scanning from offset `pos` yields the offsets of the scan from `0`,
shifted by `pos`. -/
theorem findTokensFrom_shift : ∀ (n : Nat) (s : List Char), s.length ≤ n → ∀ pos,
    findTokensFrom s pos = (findTokensFrom s 0).map (fun pt => (pt.1 + pos, pt.2)) := by
  intro n
  induction n with
  | zero =>
    intro s hs pos
    have : s = [] := List.eq_nil_of_length_eq_zero (Nat.le_zero.mp hs)
    subst this
    rfl
  | succ n ih =>
    intro s hs pos
    cases s with
    | nil => rfl
    | cons c rest =>
      have hr : rest.length ≤ n := by
        have := Nat.le_of_succ_le_succ (by simpa using hs)
        exact this
      by_cases hb : beginMarker.isPrefixOf (c :: rest) = true
      · have hd : ((c :: rest).drop beginMarker.length).length ≤ n := by
          simp only [List.length_drop, List.length_cons, beginMarker_length, endMarker_length]
          omega
        rw [findTokensFrom_begin pos hb, findTokensFrom_begin 0 hb,
          ih _ hd (pos + beginMarker.length), ih _ hd (0 + beginMarker.length)]
        simp only [List.map_cons, Nat.zero_add, map_shift_shift]
      · simp only [Bool.not_eq_true] at hb
        by_cases he : endMarker.isPrefixOf (c :: rest) = true
        · have hd : ((c :: rest).drop endMarker.length).length ≤ n := by
            simp only [List.length_drop, List.length_cons, beginMarker_length, endMarker_length]
            omega
          rw [findTokensFrom_end pos hb he, findTokensFrom_end 0 hb he,
            ih _ hd (pos + endMarker.length), ih _ hd (0 + endMarker.length)]
          simp only [List.map_cons, Nat.zero_add, map_shift_shift]
        · simp only [Bool.not_eq_true] at he
          rw [findTokensFrom_step pos hb he, findTokensFrom_step 0 hb he,
            ih _ hr (pos + 1), ih _ hr (0 + 1)]
          simp only [Nat.zero_add, map_shift_shift]

theorem findTokens0_begin {s : List Char} (hb : beginMarker.isPrefixOf s = true) :
    findTokensFrom s 0 =
      (0, Tok.doc) ::
        (findTokensFrom (s.drop beginMarker.length) 0).map
          (fun pt => (pt.1 + beginMarker.length, pt.2)) := by
  rw [findTokensFrom_begin 0 hb,
    findTokensFrom_shift (s.drop beginMarker.length).length _ le_rfl]
  simp only [Nat.zero_add]

theorem findTokens0_end {s : List Char} (hb : beginMarker.isPrefixOf s = false)
    (he : endMarker.isPrefixOf s = true) :
    findTokensFrom s 0 =
      (0, Tok.enddoc) ::
        (findTokensFrom (s.drop endMarker.length) 0).map
          (fun pt => (pt.1 + endMarker.length, pt.2)) := by
  rw [findTokensFrom_end 0 hb he,
    findTokensFrom_shift (s.drop endMarker.length).length _ le_rfl]
  simp only [Nat.zero_add]

theorem findTokens0_step {c : Char} {rest : List Char}
    (hb : beginMarker.isPrefixOf (c :: rest) = false)
    (he : endMarker.isPrefixOf (c :: rest) = false) :
    findTokensFrom (c :: rest) 0 =
      (findTokensFrom rest 0).map (fun pt => (pt.1 + 1, pt.2)) := by
  rw [findTokensFrom_step 0 hb he, findTokensFrom_shift rest.length _ le_rfl]

/-- Soundness of the scan: every token points at an actual occurrence of
its literal. -/
theorem findTokensFrom_sound : ∀ (n : Nat) (s : List Char), s.length ≤ n → ∀ q t,
    (q, t) ∈ findTokensFrom s 0 → (markerOf t).isPrefixOf (s.drop q) = true := by
  intro n
  induction n with
  | zero =>
    intro s hs q t hm
    have : s = [] := List.eq_nil_of_length_eq_zero (Nat.le_zero.mp hs)
    subst this
    simp [findTokensFrom_nil] at hm
  | succ n ih =>
    intro s hs q t hm
    cases s with
    | nil => simp [findTokensFrom_nil] at hm
    | cons c rest =>
      have hr : rest.length ≤ n := by
        have := Nat.le_of_succ_le_succ (by simpa using hs)
        exact this
      by_cases hb : beginMarker.isPrefixOf (c :: rest) = true
      · have hd : ((c :: rest).drop beginMarker.length).length ≤ n := by
          simp only [List.length_drop, List.length_cons, beginMarker_length]
          omega
        rw [findTokens0_begin hb] at hm
        rcases List.mem_cons.mp hm with h0 | htail
        · cases h0
          simpa [markerOf] using hb
        · rcases List.mem_map.mp htail with ⟨⟨q', t'⟩, hmem, heq⟩
          cases heq
          have hpre := ih _ hd q' t' hmem
          rw [List.drop_drop] at hpre
          have : beginMarker.length + q' = q' + beginMarker.length := Nat.add_comm _ _
          rw [this] at hpre
          exact hpre
      · have hb' : beginMarker.isPrefixOf (c :: rest) = false := by
          simp only [Bool.not_eq_true] at hb
          exact hb
        by_cases he : endMarker.isPrefixOf (c :: rest) = true
        · have hd : ((c :: rest).drop endMarker.length).length ≤ n := by
            simp only [List.length_drop, List.length_cons, endMarker_length]
            omega
          rw [findTokens0_end hb' he] at hm
          rcases List.mem_cons.mp hm with h0 | htail
          · cases h0
            simpa [markerOf] using he
          · rcases List.mem_map.mp htail with ⟨⟨q', t'⟩, hmem, heq⟩
            cases heq
            have hpre := ih _ hd q' t' hmem
            rw [List.drop_drop] at hpre
            have : endMarker.length + q' = q' + endMarker.length := Nat.add_comm _ _
            rw [this] at hpre
            exact hpre
        · have he' : endMarker.isPrefixOf (c :: rest) = false := by
            simp only [Bool.not_eq_true] at he
            exact he
          rw [findTokens0_step hb' he'] at hm
          rcases List.mem_map.mp hm with ⟨⟨q', t'⟩, hmem, heq⟩
          cases heq
          have hpre := ih _ hr q' t' hmem
          rw [show rest.drop q' = (c :: rest).drop (q' + 1) from (List.drop_succ_cons ..).symm]
            at hpre
          exact hpre

/-- Tokens are separated: each one ends at or before the next one starts. -/
def tokenSep (a b : Nat × Tok) : Prop :=
  a.1 + (markerOf a.2).length ≤ b.1

/-- The tokens of the scan are non-overlapping and in increasing offset
order. -/
theorem findTokensFrom_chain : ∀ (n : Nat) (s : List Char), s.length ≤ n →
    List.Chain' tokenSep (findTokensFrom s 0) := by
  intro n
  induction n with
  | zero =>
    intro s hs
    have : s = [] := List.eq_nil_of_length_eq_zero (Nat.le_zero.mp hs)
    subst this
    simp [findTokensFrom_nil]
  | succ n ih =>
    intro s hs
    cases s with
    | nil => simp [findTokensFrom_nil]
    | cons c rest =>
      have hr : rest.length ≤ n := by
        have := Nat.le_of_succ_le_succ (by simpa using hs)
        exact this
      have shiftChain : ∀ (l : List (Nat × Tok)) (L : Nat), List.Chain' tokenSep l →
          List.Chain' tokenSep (l.map (fun pt => (pt.1 + L, pt.2))) := by
        intro l L hl
        rw [List.chain'_map]
        exact hl.imp (fun a b hab => by
          simp only [tokenSep] at hab ⊢
          omega)
      have headBound : ∀ (l : List (Nat × Tok)) (L len : Nat), len ≤ L →
          ∀ y ∈ (l.map (fun pt => (pt.1 + L, pt.2))).head?, len ≤ y.1 := by
        intro l L len hlen y hy
        rw [List.head?_map] at hy
        rcases Option.map_eq_some'.mp hy with ⟨x, _, hxy⟩
        subst hxy
        simp only
        omega
      by_cases hb : beginMarker.isPrefixOf (c :: rest) = true
      · have hd : ((c :: rest).drop beginMarker.length).length ≤ n := by
          simp only [List.length_drop, List.length_cons, beginMarker_length]
          omega
        rw [findTokens0_begin hb]
        refine List.chain'_cons'.mpr ⟨?_, shiftChain _ _ (ih _ hd)⟩
        intro y hy
        have := headBound _ beginMarker.length beginMarker.length le_rfl y hy
        simp only [tokenSep, markerOf, Nat.zero_add]
        exact this
      · have hb' : beginMarker.isPrefixOf (c :: rest) = false := by
          simp only [Bool.not_eq_true] at hb
          exact hb
        by_cases he : endMarker.isPrefixOf (c :: rest) = true
        · have hd : ((c :: rest).drop endMarker.length).length ≤ n := by
            simp only [List.length_drop, List.length_cons, endMarker_length]
            omega
          rw [findTokens0_end hb' he]
          refine List.chain'_cons'.mpr ⟨?_, shiftChain _ _ (ih _ hd)⟩
          intro y hy
          have := headBound _ endMarker.length endMarker.length le_rfl y hy
          simp only [tokenSep, markerOf, Nat.zero_add]
          exact this
        · have he' : endMarker.isPrefixOf (c :: rest) = false := by
            simp only [Bool.not_eq_true] at he
            exact he
          rw [findTokens0_step hb' he']
          exact shiftChain _ _ (ih _ hr)

/-- No proper tail of `DOCUMENT();` is a prefix of `ENDDOCUMENT();`. -/
theorem begin_drop_not_prefix_end : ∀ q, 1 ≤ q → q < 11 →
    (beginMarker.drop q).isPrefixOf endMarker = false := by decide

/-- No proper tail of `ENDDOCUMENT();` is a prefix of `ENDDOCUMENT();`. -/
theorem end_drop_not_prefix_end : ∀ q, 1 ≤ q → q < 14 →
    (endMarker.drop q).isPrefixOf endMarker = false := by decide

/-- Completeness for end markers: every occurrence of `ENDDOCUMENT();` in
the text is reported as a token (no occurrence is hidden inside an earlier
match). -/
theorem findTokensFrom_complete_end : ∀ (n : Nat) (s : List Char), s.length ≤ n →
    ∀ q, endMarker.isPrefixOf (s.drop q) = true →
      (q, Tok.enddoc) ∈ findTokensFrom s 0 := by
  intro n
  induction n with
  | zero =>
    intro s hs q hq
    have : s = [] := List.eq_nil_of_length_eq_zero (Nat.le_zero.mp hs)
    subst this
    rw [List.drop_nil] at hq
    exact absurd hq (by decide)
  | succ n ih =>
    intro s hs q hq
    cases s with
    | nil =>
      rw [List.drop_nil] at hq
      exact absurd hq (by decide)
    | cons c rest =>
      have hr : rest.length ≤ n := by
        have := Nat.le_of_succ_le_succ (by simpa using hs)
        exact this
      by_cases hb : beginMarker.isPrefixOf (c :: rest) = true
      · have hd : ((c :: rest).drop beginMarker.length).length ≤ n := by
          simp only [List.length_drop, List.length_cons, beginMarker_length]
          omega
        rw [findTokens0_begin hb]
        rcases Nat.lt_or_ge q 11 with hq11 | hq11
        · rcases Nat.eq_zero_or_pos q with rfl | hq1
          · rw [List.drop_zero] at hq
            have h1 : beginMarker <+: (c :: rest) := List.isPrefixOf_iff_prefix.mp hb
            have h2 : endMarker <+: (c :: rest) := List.isPrefixOf_iff_prefix.mp hq
            have h3 : beginMarker <+: endMarker :=
              List.prefix_of_prefix_length_le h1 h2 (by decide)
            have h4 : beginMarker.isPrefixOf endMarker = true :=
              List.isPrefixOf_iff_prefix.mpr h3
            exact absurd h4 (by decide)
          · obtain ⟨u, hu⟩ := List.isPrefixOf_iff_prefix.mp hb
            have hdq : (c :: rest).drop q = beginMarker.drop q ++ u := by
              rw [← hu, List.drop_append_of_le_length
                (by rw [beginMarker_length]; omega)]
            rw [hdq] at hq
            have h2 : endMarker <+: beginMarker.drop q ++ u :=
              List.isPrefixOf_iff_prefix.mp hq
            have h1 : beginMarker.drop q <+: beginMarker.drop q ++ u :=
              List.prefix_append _ _
            have hlen : (beginMarker.drop q).length ≤ endMarker.length := by
              rw [List.length_drop, beginMarker_length, endMarker_length]
              omega
            have h3 := List.prefix_of_prefix_length_le h1 h2 hlen
            have h4 : (beginMarker.drop q).isPrefixOf endMarker = true :=
              List.isPrefixOf_iff_prefix.mpr h3
            rw [begin_drop_not_prefix_end q hq1 hq11] at h4
            exact absurd h4 (by decide)
        · have hq' : endMarker.isPrefixOf
              (((c :: rest).drop beginMarker.length).drop (q - beginMarker.length)) =
                true := by
            rw [List.drop_drop,
              show beginMarker.length + (q - beginMarker.length) = q by
                rw [beginMarker_length]; omega]
            exact hq
          have hmem := ih _ hd _ hq'
          refine List.mem_cons_of_mem _ (List.mem_map.mpr
            ⟨(q - beginMarker.length, Tok.enddoc), hmem, ?_⟩)
          simp only [Prod.mk.injEq]
          refine ⟨?_, trivial⟩
          rw [beginMarker_length]
          omega
      · have hb' : beginMarker.isPrefixOf (c :: rest) = false := by
          simp only [Bool.not_eq_true] at hb
          exact hb
        by_cases he : endMarker.isPrefixOf (c :: rest) = true
        · have hd : ((c :: rest).drop endMarker.length).length ≤ n := by
            simp only [List.length_drop, List.length_cons, endMarker_length]
            omega
          rw [findTokens0_end hb' he]
          rcases Nat.lt_or_ge q 14 with hq14 | hq14
          · rcases Nat.eq_zero_or_pos q with rfl | hq1
            · exact List.mem_cons_self _ _
            · obtain ⟨u, hu⟩ := List.isPrefixOf_iff_prefix.mp he
              have hdq : (c :: rest).drop q = endMarker.drop q ++ u := by
                rw [← hu, List.drop_append_of_le_length
                  (by rw [endMarker_length]; omega)]
              rw [hdq] at hq
              have h2 : endMarker <+: endMarker.drop q ++ u :=
                List.isPrefixOf_iff_prefix.mp hq
              have h1 : endMarker.drop q <+: endMarker.drop q ++ u :=
                List.prefix_append _ _
              have hlen : (endMarker.drop q).length ≤ endMarker.length := by
                rw [List.length_drop, endMarker_length]
                omega
              have h3 := List.prefix_of_prefix_length_le h1 h2 hlen
              have h4 : (endMarker.drop q).isPrefixOf endMarker = true :=
                List.isPrefixOf_iff_prefix.mpr h3
              rw [end_drop_not_prefix_end q hq1 hq14] at h4
              exact absurd h4 (by decide)
          · have hq' : endMarker.isPrefixOf
                (((c :: rest).drop endMarker.length).drop (q - endMarker.length)) =
                  true := by
              rw [List.drop_drop,
                show endMarker.length + (q - endMarker.length) = q by
                  rw [endMarker_length]; omega]
              exact hq
            have hmem := ih _ hd _ hq'
            refine List.mem_cons_of_mem _ (List.mem_map.mpr
              ⟨(q - endMarker.length, Tok.enddoc), hmem, ?_⟩)
            simp only [Prod.mk.injEq]
            refine ⟨?_, trivial⟩
            rw [endMarker_length]
            omega
        · have he' : endMarker.isPrefixOf (c :: rest) = false := by
            simp only [Bool.not_eq_true] at he
            exact he
          rw [findTokens0_step hb' he']
          cases q with
          | zero =>
            rw [List.drop_zero] at hq
            rw [hq] at he'
            exact absurd he' (by decide)
          | succ q' =>
            rw [List.drop_succ_cons] at hq
            exact List.mem_map.mpr ⟨(q', Tok.enddoc), ih rest hr q' hq, rfl⟩

/-! ## Filename safety -/

/-- `ALLOWED_CHARS = set(string.ascii_letters + string.digits + " _.-")`. -/
def ALLOWED_CHARS (c : Char) : Bool :=
  c.isAlpha || c.isDigit || c = ' ' || c = '_' || c = '.' || c = '-'

/-- The characters Python's argument-free `str.strip()` and `str.split()`
treat as whitespace (ASCII). -/
def pyWhitespaceChars : List Char := [' ', '\t', '\n', '\r', '\x0b', '\x0c']

/-- Python's `str.strip(chars)`: remove the characters of `strip` from both
ends of the string. -/
def pyStrip (strip : List Char) (s : List Char) : List Char :=
  ((s.dropWhile (strip.contains ·)).reverse.dropWhile (strip.contains ·)).reverse

/-- Worker for `str.split()` (no separator): split on runs of whitespace,
producing no empty pieces.  `acc` is the current piece, reversed. -/
def pySplitWsGo : List Char → List Char → List (List Char)
  | [], acc => if acc.isEmpty then [] else [acc.reverse]
  | c :: rest, acc =>
    if pyWhitespaceChars.contains c then
      if acc.isEmpty then pySplitWsGo rest []
      else acc.reverse :: pySplitWsGo rest []
    else
      pySplitWsGo rest (c :: acc)

/-- Python's `str.split()` with no argument. -/
def pySplitWs (s : List Char) : List (List Char) := pySplitWsGo s []

/-- Python's `" ".join(parts)`: the pieces concatenated with single
spaces between them. -/
def joinBySpace : List (List Char) → List Char
  | [] => []
  | [p] => p
  | p :: q :: rest => p ++ ' ' :: joinBySpace (q :: rest)

/-- `sanitize_basename`: strip outer whitespace, keep only allowed
characters, collapse whitespace runs (`" ".join(name.split())`), replace
spaces by hyphens, strip outer `" .-"`, and fall back to
`"webwork-problems"` when the result is empty. -/
def sanitize_basename (name : List Char) : List Char :=
  let n1 := pyStrip pyWhitespaceChars name
  let n2 := n1.filter ALLOWED_CHARS
  let n3 := joinBySpace (pySplitWs n2)
  let n4 := pyStrip [' ', '.', '-'] (n3.map (fun c => if c = ' ' then '-' else c))
  if n4.isEmpty then "webwork-problems".data else n4

example : sanitize_basename "My Cool   Problems!!".data = "My-Cool-Problems".data := by
  decide

example : sanitize_basename [] = "webwork-problems".data := by decide

/-! ## Path allocation

The filesystem is modelled as a predicate `ex : List Char → Bool` giving
which paths exist; both allocators are pure probes of that predicate. -/

/-- `root / name` of `pathlib`. -/
def pathJoin (root name : List Char) : List Char := root ++ '/' :: name

/-- The `k`-th candidate probed by `unique_subfolder`: `root/base` for
`k = 0`, then `root/base-k`. -/
def subfolderCandidate (root base : List Char) (k : Nat) : List Char :=
  if k = 0 then pathJoin root base
  else pathJoin root (base ++ '-' :: Nat.toDigits 10 k)

/-- The `k`-th candidate probed by `unique_zip_path`: `root/base.zip` for
`k = 0`, then `root/base-k.zip`. -/
def zipCandidate (root base : List Char) (k : Nat) : List Char :=
  if k = 0 then pathJoin root (base ++ ".zip".data)
  else pathJoin root (base ++ '-' :: Nat.toDigits 10 k ++ ".zip".data)

/-- `unique_subfolder(root, base)`: the first candidate, in the order
`base`, `base-1`, `base-2`, …, that does not exist.  The `while True` probe
loop terminates exactly when some candidate is absent, which is the
hypothesis `h`. -/
def unique_subfolder (ex : List Char → Bool) (root base : List Char)
    (h : ∃ k, ex (subfolderCandidate root base k) = false) : List Char :=
  subfolderCandidate root base (Nat.find h)

/-- `unique_zip_path(root, base)`: the first of `base.zip`, `base-1.zip`, …
that does not exist. -/
def unique_zip_path (ex : List Char → Bool) (root base : List Char)
    (h : ∃ k, ex (zipCandidate root base k) = false) : List Char :=
  zipCandidate root base (Nat.find h)

/-! ## Main -/

/-- Outcome of one run of `main`: the exit status, the folder created
before capture, the `.pg` files written (path, contents) and the zip
archive created, if any. -/
structure MainResult where
  exitCode : Nat
  folderCreated : List Char
  filesWritten : List (List Char × List Char)
  zipCreated : Option (List Char)
  deriving DecidableEq, Repr

/-- `base = sanitize_basename(raw or "webwork-problems")` where `raw` is the
stripped reply to the base-filename prompt. -/
def baseNameOf (raw : List Char) : List Char :=
  sanitize_basename
    (if (pyStrip pyWhitespaceChars raw).isEmpty then "webwork-problems".data
     else pyStrip pyWhitespaceChars raw)

/-- `pg_dir = "pg-folders/" + base`. -/
def pgDirOf (raw : List Char) : List Char :=
  "pg-folders/".data ++ baseNameOf raw

/-- The run of `main` after the prompts: `raw` is the reply to the filename
prompt, `captured` the normalized text captured until Ctrl-C, `ex` the
filesystem-existence predicate at start.  The output folder is allocated and
created before capture; blank input returns with status 0; zero blocks exit
with status 1; otherwise the `.pg` files are written and the zip created. -/
def runMain (ex : List Char → Bool) (root raw captured : List Char)
    (hf : ∃ k, ex (subfolderCandidate root (pgDirOf raw) k) = false)
    (hz : ∃ k, ex (zipCandidate root (baseNameOf raw) k) = false) : MainResult :=
  let base := baseNameOf raw
  let folder := unique_subfolder ex root (pgDirOf raw) hf
  if (pyStrip pyWhitespaceChars captured).isEmpty then
    ⟨0, folder, [], none⟩
  else
    let blocks := extract_pg_blocks_tokenized captured
    if blocks.isEmpty then
      ⟨1, folder, [], none⟩
    else
      ⟨0, folder,
        ((List.range blocks.length).zip blocks).map
          (fun ib =>
            (pathJoin folder (base ++ '-' :: Nat.toDigits 10 (ib.1 + 1) ++ ".pg".data),
             ib.2)),
        some (unique_zip_path ex root base hz)⟩

/-! ## Helper lemmas for the claims -/

instance : IsTrans (Nat × Tok) tokenSep :=
  ⟨fun a b c hab hbc => by
    simp only [tokenSep] at hab hbc ⊢
    omega⟩

/-- Any two distinct tokens of a separated token list are ordered one way
or the other. -/
theorem chain_no_overlap {l : List (Nat × Tok)} (h : List.Chain' tokenSep l) :
    ∀ a ∈ l, ∀ b ∈ l, a ≠ b → tokenSep a b ∨ tokenSep b a := by
  have hp : l.Pairwise tokenSep := List.chain'_iff_pairwise.mp h
  have hp' : l.Pairwise (fun a b => tokenSep a b ∨ tokenSep b a) := hp.imp Or.inl
  intro a ha b hb hne
  exact hp'.forall (fun x y hxy => hxy.symm) ha hb hne

/-- An alternating token list: each pair contributes one begin token and
one end token, in sequence. -/
def pairTokens : List (Nat × Nat) → List (Nat × Tok)
  | [] => []
  | (p, q) :: rest => (p, Tok.doc) :: (q, Tok.enddoc) :: pairTokens rest

/-- On an alternating token list the loop closes one block per pair, in
order. -/
theorem extractLoop_pairTokens (s : List Char) : ∀ ps : List (Nat × Nat),
    extractLoop s (pairTokens ps) 0 none =
      ps.map (fun pq => mkBlock s pq.1 pq.2) := by
  intro ps
  induction ps with
  | nil => rfl
  | cons pq rest ih =>
    obtain ⟨p, q⟩ := pq
    show extractLoop s ((p, Tok.doc) :: (q, Tok.enddoc) :: pairTokens rest) 0 none = _
    have h1 : extractLoop s ((p, Tok.doc) :: (q, Tok.enddoc) :: pairTokens rest) 0 none =
        extractLoop s ((q, Tok.enddoc) :: pairTokens rest) 1 (some p) := rfl
    have h2 : extractLoop s ((q, Tok.enddoc) :: pairTokens rest) 1 (some p) =
        mkBlock s p q :: extractLoop s (pairTokens rest) 0 none := rfl
    rw [h1, h2, ih]
    rfl

/-- If the token list holds no end token, the loop emits nothing. -/
theorem extractLoop_no_end (s : List Char) : ∀ (ts : List (Nat × Tok)),
    (∀ pt ∈ ts, pt.2 = Tok.doc) → ∀ level cur, extractLoop s ts level cur = [] := by
  intro ts
  induction ts with
  | nil => intro _ level cur; rfl
  | cons pt rest ih =>
    intro hall level cur
    obtain ⟨pos, t⟩ := pt
    cases t with
    | doc =>
      show extractLoop s ((pos, Tok.doc) :: rest) level cur = []
      exact ih (fun x hx => hall x (List.mem_cons_of_mem _ hx)) _ _
    | enddoc =>
      have := hall (pos, Tok.enddoc) (List.mem_cons_self _ _)
      simp at this

/-- The token loop instrumented with the number of begin and end tokens
consumed since the pending block opened. -/
def extractLoopCounts (s : List Char) :
    List (Nat × Tok) → Nat → Option Nat → Nat → Nat → List (List Char × Nat × Nat)
  | [], _, _, _, _ => []
  | (pos, Tok.doc) :: rest, level, cur, d, e =>
    if level = 0 then extractLoopCounts s rest (level + 1) (some pos) 1 0
    else extractLoopCounts s rest (level + 1) cur (d + 1) e
  | (pos, Tok.enddoc) :: rest, level, cur, d, e =>
    if level > 0 then
      if level - 1 = 0 then
        match cur with
        | some a =>
          (mkBlock s a pos, d, e + 1) :: extractLoopCounts s rest (level - 1) none 0 0
        | none => extractLoopCounts s rest (level - 1) cur 0 0
      else
        extractLoopCounts s rest (level - 1) cur d (e + 1)
    else
      extractLoopCounts s rest level cur d e

/-- The instrumented loop computes the same blocks as the plain loop. -/
theorem extractLoopCounts_fst (s : List Char) : ∀ (ts : List (Nat × Tok))
    (level : Nat) (cur : Option Nat) (d e : Nat),
    (extractLoopCounts s ts level cur d e).map Prod.fst = extractLoop s ts level cur := by
  intro ts
  induction ts with
  | nil => intro level cur d e; rfl
  | cons pt rest ih =>
    intro level cur d e
    obtain ⟨pos, t⟩ := pt
    cases t with
    | doc =>
      show (extractLoopCounts s ((pos, Tok.doc) :: rest) level cur d e).map Prod.fst =
        extractLoop s ((pos, Tok.doc) :: rest) level cur
      by_cases hl : level = 0
      · subst hl
        simp only [extractLoopCounts, extractLoop, if_pos rfl]
        exact ih _ _ _ _
      · simp only [extractLoopCounts, extractLoop, if_neg hl]
        exact ih _ _ _ _
    | enddoc =>
      show (extractLoopCounts s ((pos, Tok.enddoc) :: rest) level cur d e).map Prod.fst =
        extractLoop s ((pos, Tok.enddoc) :: rest) level cur
      by_cases hl : level > 0
      · by_cases hl1 : level - 1 = 0
        · cases cur with
          | some a =>
            simp only [extractLoopCounts, extractLoop, if_pos hl, if_pos hl1,
              List.map_cons]
            exact congrArg _ (ih _ _ _ _)
          | none =>
            simp only [extractLoopCounts, extractLoop, if_pos hl, if_pos hl1]
            exact ih _ _ _ _
        · simp only [extractLoopCounts, extractLoop, if_pos hl, if_neg hl1]
          exact ih _ _ _ _
      · simp only [extractLoopCounts, extractLoop, if_neg hl]
        exact ih _ _ _ _

/-- Invariant: while a block is open, begin tokens consumed exceed end
tokens consumed by exactly the nesting level, so every closed block has
consumed equal numbers of begin and end tokens. -/
theorem extractLoopCounts_balanced (s : List Char) : ∀ (ts : List (Nat × Tok))
    (level : Nat) (cur : Option Nat) (d e : Nat), d = e + level →
    ∀ x ∈ extractLoopCounts s ts level cur d e, x.2.1 = x.2.2 := by
  intro ts
  induction ts with
  | nil => intro level cur d e _ x hx; simp [extractLoopCounts] at hx
  | cons pt rest ih =>
    intro level cur d e hinv x hx
    obtain ⟨pos, t⟩ := pt
    cases t with
    | doc =>
      by_cases hl : level = 0
      · subst hl
        rw [show extractLoopCounts s ((pos, Tok.doc) :: rest) 0 cur d e =
          extractLoopCounts s rest 1 (some pos) 1 0 from rfl] at hx
        exact ih _ _ _ _ (by omega) x hx
      · rw [show extractLoopCounts s ((pos, Tok.doc) :: rest) level cur d e =
          extractLoopCounts s rest (level + 1) cur (d + 1) e by
            simp only [extractLoopCounts, if_neg hl]] at hx
        exact ih _ _ _ _ (by omega) x hx
    | enddoc =>
      by_cases hl : level > 0
      · by_cases hl1 : level - 1 = 0
        · cases cur with
          | some a =>
            rw [show extractLoopCounts s ((pos, Tok.enddoc) :: rest) level (some a) d e =
              (mkBlock s a pos, d, e + 1) ::
                extractLoopCounts s rest (level - 1) none 0 0 by
                  simp only [extractLoopCounts, if_pos hl, if_pos hl1]] at hx
            rcases List.mem_cons.mp hx with h0 | htail
            · subst h0
              simp only
              omega
            · exact ih _ _ _ _ (by omega) x htail
          | none =>
            rw [show extractLoopCounts s ((pos, Tok.enddoc) :: rest) level none d e =
              extractLoopCounts s rest (level - 1) none 0 0 by
                simp only [extractLoopCounts, if_pos hl, if_pos hl1]] at hx
            exact ih _ _ _ _ (by omega) x hx
        · rw [show extractLoopCounts s ((pos, Tok.enddoc) :: rest) level cur d e =
            extractLoopCounts s rest (level - 1) cur d (e + 1) by
              simp only [extractLoopCounts, if_pos hl, if_neg hl1]] at hx
          exact ih _ _ _ _ (by omega) x hx
      · rw [show extractLoopCounts s ((pos, Tok.enddoc) :: rest) level cur d e =
          extractLoopCounts s rest level cur d e by
            simp only [extractLoopCounts, if_neg hl]] at hx
        exact ih _ _ _ _ hinv x hx

/-- The blocks of a text together with the count of begin and end tokens
consumed for each. -/
def blocksWithCounts (s : List Char) : List (List Char × Nat × Nat) :=
  extractLoopCounts s (findTokens s) 0 none 0 0

/-- Characters of a stripped string come from the original string. -/
theorem mem_pyStrip {cs s : List Char} {c : Char} (h : c ∈ pyStrip cs s) : c ∈ s := by
  unfold pyStrip at h
  rw [List.mem_reverse] at h
  have h1 := List.Sublist.mem h (List.dropWhile_sublist _)
  rw [List.mem_reverse] at h1
  exact List.Sublist.mem h1 (List.dropWhile_sublist _)

/-- The first character of a stripped string is not a stripped character. -/
theorem pyStrip_head {cs s : List Char} {c : Char}
    (h : (pyStrip cs s).head? = some c) : cs.contains c = false := by
  unfold pyStrip at h
  rw [List.head?_reverse] at h
  obtain ⟨pre, hpre⟩ :=
    List.dropWhile_suffix (l := (s.dropWhile (cs.contains ·)).reverse) (cs.contains ·)
  have hz : ((s.dropWhile (cs.contains ·)).reverse).getLast? = some c := by
    rw [← hpre, List.getLast?_append, h]
    rfl
  rw [List.getLast?_reverse] at hz
  have hw := List.head?_dropWhile_not (cs.contains ·) s
  rw [hz] at hw
  exact hw

/-- The last character of a stripped string is not a stripped character. -/
theorem pyStrip_getLast {cs s : List Char} {c : Char}
    (h : (pyStrip cs s).getLast? = some c) : cs.contains c = false := by
  unfold pyStrip at h
  rw [List.getLast?_reverse] at h
  have hw := List.head?_dropWhile_not (cs.contains ·)
    ((s.dropWhile (cs.contains ·)).reverse)
  rw [h] at hw
  exact hw

/-- Characters of the split pieces come from the split string or the
accumulator. -/
theorem mem_pySplitWsGo : ∀ (s acc p : List Char) (c : Char),
    p ∈ pySplitWsGo s acc → c ∈ p → c ∈ s ∨ c ∈ acc := by
  intro s
  induction s with
  | nil =>
    intro acc p c hp hc
    rw [show pySplitWsGo [] acc = if acc.isEmpty then [] else [acc.reverse] from rfl] at hp
    by_cases hacc : acc.isEmpty
    · rw [if_pos hacc] at hp
      simp at hp
    · rw [if_neg hacc] at hp
      rcases List.mem_singleton.mp hp with rfl
      right
      exact List.mem_reverse.mp hc
  | cons c' rest ih =>
    intro acc p c hp hc
    by_cases h1 : pyWhitespaceChars.contains c' = true
    · by_cases h2 : acc.isEmpty = true
      · rw [show pySplitWsGo (c' :: rest) acc = pySplitWsGo rest [] by
          simp only [pySplitWsGo, h1, h2, if_true]] at hp
        rcases ih [] p c hp hc with h | h
        · exact Or.inl (List.mem_cons_of_mem _ h)
        · simp at h
      · rw [show pySplitWsGo (c' :: rest) acc = acc.reverse :: pySplitWsGo rest [] by
          simp only [pySplitWsGo, h1, h2, if_true, Bool.false_eq_true, if_false]] at hp
        rcases List.mem_cons.mp hp with rfl | hp'
        · exact Or.inr (List.mem_reverse.mp hc)
        · rcases ih [] p c hp' hc with h | h
          · exact Or.inl (List.mem_cons_of_mem _ h)
          · simp at h
    · simp only [Bool.not_eq_true] at h1
      rw [show pySplitWsGo (c' :: rest) acc = pySplitWsGo rest (c' :: acc) by
        simp only [pySplitWsGo, h1, Bool.false_eq_true, if_false]] at hp
      rcases ih (c' :: acc) p c hp hc with h | h
      · exact Or.inl (List.mem_cons_of_mem _ h)
      · rcases List.mem_cons.mp h with rfl | h'
        · exact Or.inl (List.mem_cons_self _ _)
        · exact Or.inr h'

/-- Characters of the split pieces come from the split string. -/
theorem mem_pySplitWs {s p : List Char} {c : Char}
    (hp : p ∈ pySplitWs s) (hc : c ∈ p) : c ∈ s := by
  rcases mem_pySplitWsGo s [] p c hp hc with h | h
  · exact h
  · simp at h

/-- Characters of a joined list are spaces or come from the pieces. -/
theorem mem_joinBySpace : ∀ (parts : List (List Char)) (c : Char),
    c ∈ joinBySpace parts → c = ' ' ∨ ∃ p ∈ parts, c ∈ p := by
  intro parts
  induction parts with
  | nil => intro c hc; simp [joinBySpace] at hc
  | cons p rest ih =>
    intro c hc
    cases rest with
    | nil =>
      right
      exact ⟨p, List.mem_cons_self _ _, by simpa [joinBySpace] using hc⟩
    | cons q rest' =>
      rw [show joinBySpace (p :: q :: rest') = p ++ ' ' :: joinBySpace (q :: rest')
        from rfl] at hc
      rcases List.mem_append.mp hc with h | h
      · exact Or.inr ⟨p, List.mem_cons_self _ _, h⟩
      · rcases List.mem_cons.mp h with rfl | h'
        · exact Or.inl rfl
        · rcases ih c h' with h'' | ⟨p', hp', hcp'⟩
          · exact Or.inl h''
          · exact Or.inr ⟨p', List.mem_cons_of_mem _ hp', hcp'⟩

/-- A begin marker with no end marker at all after it. -/
def loneBegin : List Char := "DOCUMENT();\nno end marker here\n".data

/-! ## Claim theorems -/

/-- C1: for every input string containing `N` well-formed, non-nested
begin/end marker pairs in sequence (and no other marker occurrences) —
i.e. whose marker tokens alternate begin, end, begin, end, … — the
extractor returns exactly `N` Blocks, in left-to-right document order
(the `i`-th Block is the one closed by the `i`-th pair). -/
theorem claim1_extractor_counts_pairs (s : List Char) (ps : List (Nat × Nat))
    (h : findTokens s = pairTokens ps) :
    extract_pg_blocks_tokenized s = ps.map (fun pq => mkBlock s pq.1 pq.2) ∧
    (extract_pg_blocks_tokenized s).length = ps.length := by
  unfold extract_pg_blocks_tokenized
  rw [h, extractLoop_pairTokens]
  exact ⟨rfl, by simp⟩

/-- Witness for C1 at the two-pair example input. -/
theorem claim1_witness :
    extract_pg_blocks_tokenized exampleInput =
      [((0 : Nat), (16 : Nat)), (41, 57)].map
        (fun pq => mkBlock exampleInput pq.1 pq.2) ∧
    (extract_pg_blocks_tokenized exampleInput).length =
      [((0 : Nat), (16 : Nat)), (41, 57)].length :=
  claim1_extractor_counts_pairs exampleInput [(0, 16), (41, 57)] (by decide)

/-- C2 counterexample: on two consecutive begin markers followed by one
end marker the extractor returns no Block at all, not one Block (the
counter is left at 1, so the pending block is never closed). -/
theorem claim2_counterexample :
    extract_pg_blocks_tokenized nestedInput = [] ∧
    (extract_pg_blocks_tokenized nestedInput).length ≠ 1 :=
  ⟨by decide, by decide⟩

/-- C2 (amended): for every text whose marker tokens are two begin markers
followed by one end marker (simulated nesting), the extractor returns zero
Blocks — the outer block stays pending and is discarded. -/
theorem claim2_amended_no_block (s : List Char) (p1 p2 q : Nat)
    (h : findTokens s = [(p1, Tok.doc), (p2, Tok.doc), (q, Tok.enddoc)]) :
    extract_pg_blocks_tokenized s = [] := by
  unfold extract_pg_blocks_tokenized
  rw [h]
  rfl

/-- Witness for the amended C2 at the concrete nested input. -/
theorem claim2_witness : extract_pg_blocks_tokenized nestedInput = [] :=
  claim2_amended_no_block nestedInput 0 11 22 (by decide)

/-- C3: the end-to-end example input yields exactly the two expected
blocks, the first extended to the end of its line to absorb the trailing
comment, both with a final newline. -/
theorem claim3_end_to_end :
    extract_pg_blocks_tokenized exampleInput =
      ["DOCUMENT();\nfoo\nENDDOCUMENT(); % comment\n".data,
       "DOCUMENT();\nbar\nENDDOCUMENT();\n".data] := by
  decide

/-- C4: every Block closed by the loop has consumed exactly as many begin
tokens as end tokens (witnessed by the instrumented loop, which computes
the same blocks); once the tokens are exhausted, any pending unterminated
block is discarded, whatever the counter and pending state; and an input
whose tokens are all begin markers (in particular a begin marker with no
following end marker) yields zero Blocks. -/
theorem claim4_balanced_consumption (s : List Char) :
    ((blocksWithCounts s).map Prod.fst = extract_pg_blocks_tokenized s) ∧
    (∀ x ∈ blocksWithCounts s, x.2.1 = x.2.2) ∧
    (∀ (level : Nat) (cur : Option Nat), extractLoop s [] level cur = []) ∧
    ((∀ pt ∈ findTokens s, pt.2 = Tok.doc) → extract_pg_blocks_tokenized s = []) := by
  refine ⟨extractLoopCounts_fst s _ _ _ _ _,
    extractLoopCounts_balanced s _ _ _ _ _ rfl, fun _ _ => rfl, ?_⟩
  intro hall
  exact extractLoop_no_end s _ hall 0 none

/-- Witness for C4: a lone begin marker with no end marker produces no
output. -/
theorem claim4_witness : extract_pg_blocks_tokenized loneBegin = [] :=
  (claim4_balanced_consumption loneBegin).2.2.2 (by decide)

/-- C5: an end-marker token reaching the loop while the nesting counter is
zero is ignored: no error, no state change — the loop continues on the
remaining tokens with the same counter and pending start. -/
theorem claim5_stray_end_ignored (s : List Char) (pos : Nat)
    (rest : List (Nat × Tok)) (cur : Option Nat) :
    extractLoop s ((pos, Tok.enddoc) :: rest) 0 cur = extractLoop s rest 0 cur := rfl

/-- C9: the tokenization is sound (every token sits on an occurrence of
its literal), tokens are non-overlapping and ordered by offset, every
occurrence of `ENDDOCUMENT();` is reported as a single end token, and the
`DOCUMENT();` substring embedded inside an `ENDDOCUMENT();` occurrence is
never additionally counted as a begin token. -/
theorem claim9_tokenization (s : List Char) :
    (∀ q t, (q, t) ∈ findTokens s → (markerOf t).isPrefixOf (s.drop q) = true) ∧
    List.Chain' tokenSep (findTokens s) ∧
    (∀ q, endMarker.isPrefixOf (s.drop q) = true → (q, Tok.enddoc) ∈ findTokens s) ∧
    (∀ q, (q, Tok.enddoc) ∈ findTokens s → (q + 3, Tok.doc) ∉ findTokens s) := by
  refine ⟨fun q t => findTokensFrom_sound s.length s le_rfl q t,
    findTokensFrom_chain s.length s le_rfl,
    fun q => findTokensFrom_complete_end s.length s le_rfl q, ?_⟩
  intro q hq hq3
  have hne : ((q, Tok.enddoc) : Nat × Tok) ≠ (q + 3, Tok.doc) := by
    intro hcontra
    exact Tok.noConfusion (congrArg Prod.snd hcontra)
  rcases chain_no_overlap (findTokensFrom_chain s.length s le_rfl) _ hq _ hq3 hne
    with h | h <;>
    simp only [tokenSep, markerOf, endMarker_length, beginMarker_length] at h <;>
    omega

/-- Witness for C9: in the nested example the end marker at offset 22 is
reported, and no begin token is reported at offset 25 (inside it). -/
theorem claim9_witness :
    (22, Tok.enddoc) ∈ findTokens nestedInput ∧
    (25, Tok.doc) ∉ findTokens nestedInput := by
  constructor
  · exact (claim9_tokenization nestedInput).2.2.1 22 (by decide)
  · exact (claim9_tokenization nestedInput).2.2.2 22
      ((claim9_tokenization nestedInput).2.2.1 22 (by decide))

/-- The sanitizer, written out without the intermediate bindings. -/
theorem sanitize_basename_eq (name : List Char) :
    sanitize_basename name =
      (if (pyStrip [' ', '.', '-']
            ((joinBySpace (pySplitWs
              ((pyStrip pyWhitespaceChars name).filter ALLOWED_CHARS))).map
                (fun c => if c = ' ' then '-' else c))).isEmpty
       then "webwork-problems".data
       else pyStrip [' ', '.', '-']
            ((joinBySpace (pySplitWs
              ((pyStrip pyWhitespaceChars name).filter ALLOWED_CHARS))).map
                (fun c => if c = ' ' then '-' else c))) := rfl

/-- C7: `sanitize_basename` is total; its output holds only letters,
digits, spaces, underscores, dots and hyphens, holds in fact no space at
all (internal whitespace runs having been collapsed to single hyphens), is
never empty, neither starts nor ends with a separator character, maps any
all-invalid-character input (in particular the empty string) to the fixed
default name, and maps `"My Cool   Problems!!"` to `"My-Cool-Problems"`. -/
theorem claim7_sanitize_basename (name : List Char) :
    (∀ c ∈ sanitize_basename name, ALLOWED_CHARS c = true) ∧
    (∀ c ∈ sanitize_basename name, c ≠ ' ') ∧
    sanitize_basename name ≠ [] ∧
    (∀ c, (sanitize_basename name).head? = some c →
      ([' ', '.', '-'] : List Char).contains c = false) ∧
    (∀ c, (sanitize_basename name).getLast? = some c →
      ([' ', '.', '-'] : List Char).contains c = false) ∧
    ((∀ c ∈ name, ALLOWED_CHARS c = false) →
      sanitize_basename name = "webwork-problems".data) ∧
    sanitize_basename [] = "webwork-problems".data ∧
    sanitize_basename "My Cool   Problems!!".data = "My-Cool-Problems".data := by
  have memChar : ∀ c ∈ sanitize_basename name, ALLOWED_CHARS c = true ∧ c ≠ ' ' := by
    intro c hc
    rw [sanitize_basename_eq] at hc
    by_cases hemp : (pyStrip [' ', '.', '-']
        ((joinBySpace (pySplitWs
          ((pyStrip pyWhitespaceChars name).filter ALLOWED_CHARS))).map
            (fun c => if c = ' ' then '-' else c))).isEmpty
    · rw [if_pos hemp] at hc
      revert c hc
      decide
    · rw [if_neg hemp] at hc
      have hc2 := mem_pyStrip hc
      rcases List.mem_map.mp hc2 with ⟨c', hc', hfc⟩
      by_cases hsp : c' = ' '
      · subst hsp
        rw [if_pos rfl] at hfc
        subst hfc
        exact ⟨by decide, by decide⟩
      · rw [if_neg hsp] at hfc
        subst hfc
        rcases mem_joinBySpace _ c' hc' with h | ⟨p, hp, hcp⟩
        · exact absurd h hsp
        · have hmem := mem_pySplitWs hp hcp
          have := (List.mem_filter.mp hmem).2
          exact ⟨this, hsp⟩
  refine ⟨fun c hc => (memChar c hc).1, fun c hc => (memChar c hc).2, ?_, ?_, ?_, ?_,
    by decide, by decide⟩
  · rw [sanitize_basename_eq]
    by_cases hemp : (pyStrip [' ', '.', '-']
        ((joinBySpace (pySplitWs
          ((pyStrip pyWhitespaceChars name).filter ALLOWED_CHARS))).map
            (fun c => if c = ' ' then '-' else c))).isEmpty
    · rw [if_pos hemp]
      decide
    · rw [if_neg hemp]
      intro hnil
      rw [hnil] at hemp
      exact hemp rfl
  · intro c hc
    rw [sanitize_basename_eq] at hc
    by_cases hemp : (pyStrip [' ', '.', '-']
        ((joinBySpace (pySplitWs
          ((pyStrip pyWhitespaceChars name).filter ALLOWED_CHARS))).map
            (fun c => if c = ' ' then '-' else c))).isEmpty
    · rw [if_pos hemp] at hc
      rw [show ("webwork-problems".data).head? = some 'w' from rfl] at hc
      cases hc
      decide
    · rw [if_neg hemp] at hc
      exact pyStrip_head hc
  · intro c hc
    rw [sanitize_basename_eq] at hc
    by_cases hemp : (pyStrip [' ', '.', '-']
        ((joinBySpace (pySplitWs
          ((pyStrip pyWhitespaceChars name).filter ALLOWED_CHARS))).map
            (fun c => if c = ' ' then '-' else c))).isEmpty
    · rw [if_pos hemp] at hc
      rw [show ("webwork-problems".data).getLast? = some 's' from rfl] at hc
      cases hc
      decide
    · rw [if_neg hemp] at hc
      exact pyStrip_getLast hc
  · intro hall
    have h2 : (pyStrip pyWhitespaceChars name).filter ALLOWED_CHARS = [] := by
      rw [List.filter_eq_nil_iff]
      intro a ha
      have := hall a (mem_pyStrip ha)
      simp [this]
    rw [sanitize_basename_eq, h2]
    rfl

/-- Witness for C7 at an input with disallowed characters, runs of
spaces, and trailing separators. -/
theorem claim7_witness :
    sanitize_basename "My Cool   Problems!!".data = "My-Cool-Problems".data ∧
    sanitize_basename "///***".data = "webwork-problems".data := by
  constructor
  · exact (claim7_sanitize_basename "My Cool   Problems!!".data).2.2.2.2.2.2.2
  · exact (claim7_sanitize_basename "///***".data).2.2.2.2.2.1 (by decide)

/-- C8: with filesystem existence modelled by `ex`, the folder allocator
returns `root/base` when it is absent, and otherwise `root/base-k` for the
smallest `k ≥ 1` whose candidate is absent; in particular an existing
`base` with absent `base-1` yields `base-1`, an existing `base-1` with
absent `base-2` yields `base-2`, and the returned path never exists at
call time. -/
theorem claim8_unique_subfolder (ex : List Char → Bool) (root base : List Char)
    (h : ∃ k, ex (subfolderCandidate root base k) = false) :
    ex (unique_subfolder ex root base h) = false ∧
    (ex (subfolderCandidate root base 0) = false →
      unique_subfolder ex root base h = subfolderCandidate root base 0) ∧
    (ex (subfolderCandidate root base 0) = true →
      ∃ k, 1 ≤ k ∧ unique_subfolder ex root base h = subfolderCandidate root base k ∧
        ex (subfolderCandidate root base k) = false ∧
        ∀ j, 1 ≤ j → j < k → ex (subfolderCandidate root base j) = true) ∧
    (ex (subfolderCandidate root base 0) = true →
      ex (subfolderCandidate root base 1) = false →
      unique_subfolder ex root base h = subfolderCandidate root base 1) ∧
    (ex (subfolderCandidate root base 0) = true →
      ex (subfolderCandidate root base 1) = true →
      ex (subfolderCandidate root base 2) = false →
      unique_subfolder ex root base h = subfolderCandidate root base 2) := by
  have hfind : ∀ m, Nat.find h = m → unique_subfolder ex root base h =
      subfolderCandidate root base m := by
    intro m hm
    unfold unique_subfolder
    rw [hm]
  refine ⟨Nat.find_spec h, ?_, ?_, ?_, ?_⟩
  · intro h0
    exact hfind 0 ((Nat.find_eq_zero h).mpr h0)
  · intro h0
    refine ⟨Nat.find h, ?_, rfl, Nat.find_spec h, ?_⟩
    · rcases Nat.eq_zero_or_pos (Nat.find h) with hz | hp
      · exfalso
        have := (Nat.find_eq_zero h).mp hz
        rw [h0] at this
        exact absurd this (by decide)
      · exact hp
    · intro j _ hj
      have hmin := Nat.find_min h hj
      cases hexj : ex (subfolderCandidate root base j) with
      | false => exact absurd hexj hmin
      | true => rfl
  · intro h0 h1
    refine hfind 1 ((Nat.find_eq_iff h).mpr ⟨h1, ?_⟩)
    intro n hn
    interval_cases n
    rw [h0]
    exact fun hcontra => absurd hcontra (by decide)
  · intro h0 h1 h2
    refine hfind 2 ((Nat.find_eq_iff h).mpr ⟨h2, ?_⟩)
    intro n hn
    interval_cases n
    · rw [h0]
      exact fun hcontra => absurd hcontra (by decide)
    · rw [h1]
      exact fun hcontra => absurd hcontra (by decide)

/-- A one-folder filesystem for the C8 witness: only `r/b` exists. -/
def exW : List Char → Bool := fun p => p == subfolderCandidate "r".data "b".data 0

theorem exW_h : ∃ k, exW (subfolderCandidate "r".data "b".data k) = false :=
  ⟨1, by decide⟩

/-- Witness for C8: when `r/b` exists and `r/b-1` does not, the allocator
returns `r/b-1`, which does not exist. -/
theorem claim8_witness :
    unique_subfolder exW "r".data "b".data exW_h =
      subfolderCandidate "r".data "b".data 1 ∧
    exW (unique_subfolder exW "r".data "b".data exW_h) = false := by
  constructor
  · exact (claim8_unique_subfolder exW "r".data "b".data exW_h).2.2.2.1
      (by decide) (by decide)
  · exact (claim8_unique_subfolder exW "r".data "b".data exW_h).1

/-- The output folder of a run is always the one allocated up front,
whatever is captured afterwards. -/
theorem runMain_folder (ex : List Char → Bool) (root raw captured : List Char)
    (hf : ∃ k, ex (subfolderCandidate root (pgDirOf raw) k) = false)
    (hz : ∃ k, ex (zipCandidate root (baseNameOf raw) k) = false) :
    (runMain ex root raw captured hf hz).folderCreated =
      unique_subfolder ex root (pgDirOf raw) hf := by
  by_cases hemp : (pyStrip pyWhitespaceChars captured).isEmpty = true
  · simp only [runMain, hemp, if_true]
  · simp only [Bool.not_eq_true] at hemp
    by_cases hblk : (extract_pg_blocks_tokenized captured).isEmpty = true
    · simp only [runMain, hemp, Bool.false_eq_true, if_false, hblk, if_true]
    · simp only [Bool.not_eq_true] at hblk
      simp only [runMain, hemp, hblk, Bool.false_eq_true, if_false]

/-- C6: the run exits with a non-zero status exactly when the captured
text is not blank and the extractor finds zero Blocks; blank captured
text exits with status 0 (and does nothing); and when blocks are found
the run exits with status 0 after writing the files and the zip. -/
theorem claim6_exit_behavior (ex : List Char → Bool) (root raw captured : List Char)
    (hf : ∃ k, ex (subfolderCandidate root (pgDirOf raw) k) = false)
    (hz : ∃ k, ex (zipCandidate root (baseNameOf raw) k) = false) :
    ((runMain ex root raw captured hf hz).exitCode ≠ 0 ↔
      ((pyStrip pyWhitespaceChars captured).isEmpty = false ∧
        extract_pg_blocks_tokenized captured = [])) ∧
    ((pyStrip pyWhitespaceChars captured).isEmpty = true →
      (runMain ex root raw captured hf hz).exitCode = 0) ∧
    ((pyStrip pyWhitespaceChars captured).isEmpty = false →
      extract_pg_blocks_tokenized captured = [] →
      (runMain ex root raw captured hf hz).exitCode = 1) ∧
    ((pyStrip pyWhitespaceChars captured).isEmpty = false →
      extract_pg_blocks_tokenized captured ≠ [] →
      (runMain ex root raw captured hf hz).exitCode = 0 ∧
      (runMain ex root raw captured hf hz).zipCreated =
        some (unique_zip_path ex root (baseNameOf raw) hz) ∧
      (runMain ex root raw captured hf hz).filesWritten ≠ []) := by
  by_cases hemp : (pyStrip pyWhitespaceChars captured).isEmpty = true
  · have hR : runMain ex root raw captured hf hz =
        ⟨0, unique_subfolder ex root (pgDirOf raw) hf, [], none⟩ := by
      simp only [runMain, hemp, if_true]
    rw [hR]
    refine ⟨⟨fun hcontra => absurd rfl hcontra, ?_⟩, fun _ => rfl, ?_, ?_⟩
    · rintro ⟨h1, _⟩
      rw [hemp] at h1
      exact absurd h1 (by decide)
    · intro hfalse _
      rw [hemp] at hfalse
      exact absurd hfalse (by decide)
    · intro hfalse _
      rw [hemp] at hfalse
      exact absurd hfalse (by decide)
  · simp only [Bool.not_eq_true] at hemp
    by_cases hblk : extract_pg_blocks_tokenized captured = []
    · have hR : runMain ex root raw captured hf hz =
          ⟨1, unique_subfolder ex root (pgDirOf raw) hf, [], none⟩ := by
        simp only [runMain, hemp, Bool.false_eq_true, if_false, hblk,
          List.isEmpty_nil, if_true]
      rw [hR]
      refine ⟨⟨fun _ => ⟨hemp, hblk⟩, fun _ => Nat.one_ne_zero⟩, ?_, fun _ _ => rfl, ?_⟩
      · intro htrue
        exact absurd (hemp.symm.trans htrue) (by decide)
      · intro _ hne
        exact absurd hblk hne
    · have hblk' : (extract_pg_blocks_tokenized captured).isEmpty = false :=
        List.isEmpty_eq_false.mpr hblk
      have hR : runMain ex root raw captured hf hz =
          ⟨0, unique_subfolder ex root (pgDirOf raw) hf,
            ((List.range (extract_pg_blocks_tokenized captured).length).zip
              (extract_pg_blocks_tokenized captured)).map
              (fun ib =>
                (pathJoin (unique_subfolder ex root (pgDirOf raw) hf)
                  (baseNameOf raw ++ '-' :: Nat.toDigits 10 (ib.1 + 1) ++ ".pg".data),
                 ib.2)),
            some (unique_zip_path ex root (baseNameOf raw) hz)⟩ := by
        simp only [runMain, hemp, hblk', Bool.false_eq_true, if_false]
      rw [hR]
      refine ⟨⟨fun hcontra => absurd rfl hcontra, ?_⟩, ?_, ?_, ?_⟩
      · rintro ⟨_, h2⟩
        exact absurd h2 hblk
      · intro htrue
        exact absurd (hemp.symm.trans htrue) (by decide)
      · intro _ h2
        exact absurd h2 hblk
      · intro _ _
        refine ⟨rfl, rfl, ?_⟩
        intro hnil
        have hlen := congrArg List.length hnil
        simp only [List.length_map, List.length_zip, List.length_range,
          Nat.min_self, List.length_nil] at hlen
        exact hblk (List.length_eq_zero.mp hlen)

/-- An empty filesystem for the C6 and C10 witnesses. -/
def exFree : List Char → Bool := fun _ => false

theorem exFree_hf : ∃ k, exFree (subfolderCandidate "r".data (pgDirOf "b".data) k) = false :=
  ⟨0, rfl⟩

theorem exFree_hz : ∃ k, exFree (zipCandidate "r".data (baseNameOf "b".data) k) = false :=
  ⟨0, rfl⟩

/-- Witness for C6: non-blank captured text with no marker pair exits
with a non-zero status. -/
theorem claim6_witness :
    (runMain exFree "r".data "b".data "DOCUMENT();x".data
      exFree_hf exFree_hz).exitCode ≠ 0 :=
  (claim6_exit_behavior exFree "r".data "b".data "DOCUMENT();x".data
    exFree_hf exFree_hz).1.mpr ⟨by decide, by decide⟩

/-- C10: the output folder is allocated from the filename prompt alone —
the same folder is created whatever is captured afterwards, it is a
`pg-folders/` candidate path, and on both early-exit paths (blank capture,
exit 0; zero blocks, exit 1) no file is written and no zip is created,
while the created folder remains recorded in the result. -/
theorem claim10_folder_frame (ex : List Char → Bool) (root raw c c' : List Char)
    (hf : ∃ k, ex (subfolderCandidate root (pgDirOf raw) k) = false)
    (hz : ∃ k, ex (zipCandidate root (baseNameOf raw) k) = false) :
    (runMain ex root raw c hf hz).folderCreated =
      (runMain ex root raw c' hf hz).folderCreated ∧
    (runMain ex root raw c hf hz).folderCreated =
      unique_subfolder ex root (pgDirOf raw) hf ∧
    (∃ k, (runMain ex root raw c hf hz).folderCreated =
      subfolderCandidate root ("pg-folders/".data ++ baseNameOf raw) k) ∧
    ((pyStrip pyWhitespaceChars c).isEmpty = true →
      (runMain ex root raw c hf hz).filesWritten = [] ∧
      (runMain ex root raw c hf hz).zipCreated = none ∧
      (runMain ex root raw c hf hz).exitCode = 0) ∧
    ((pyStrip pyWhitespaceChars c).isEmpty = false →
      extract_pg_blocks_tokenized c = [] →
      (runMain ex root raw c hf hz).filesWritten = [] ∧
      (runMain ex root raw c hf hz).zipCreated = none ∧
      (runMain ex root raw c hf hz).exitCode = 1) := by
  refine ⟨?_, runMain_folder ex root raw c hf hz, ?_, ?_, ?_⟩
  · rw [runMain_folder ex root raw c hf hz, runMain_folder ex root raw c' hf hz]
  · exact ⟨Nat.find hf, by rw [runMain_folder ex root raw c hf hz]; rfl⟩
  · intro hemp
    have hR : runMain ex root raw c hf hz =
        ⟨0, unique_subfolder ex root (pgDirOf raw) hf, [], none⟩ := by
      simp only [runMain, hemp, if_true]
    rw [hR]
    exact ⟨rfl, rfl, rfl⟩
  · intro hemp hblk
    have hR : runMain ex root raw c hf hz =
        ⟨1, unique_subfolder ex root (pgDirOf raw) hf, [], none⟩ := by
      simp only [runMain, hemp, Bool.false_eq_true, if_false, hblk,
        List.isEmpty_nil, if_true]
    rw [hR]
    exact ⟨rfl, rfl, rfl⟩

/-- Witness for C10: on blank captured text nothing is written and the
run exits with status 0. -/
theorem claim10_witness :
    (runMain exFree "r".data "b".data "   ".data exFree_hf exFree_hz).filesWritten = [] ∧
    (runMain exFree "r".data "b".data "   ".data exFree_hf exFree_hz).zipCreated = none ∧
    (runMain exFree "r".data "b".data "   ".data exFree_hf exFree_hz).exitCode = 0 :=
  (claim10_folder_frame exFree "r".data "b".data "   ".data "x".data
    exFree_hf exFree_hz).2.2.2.1 (by decide)
